import Mathlib

/-!
Shallow embedding of `pdfmerge.py`, a command-line PDF merger with
collision-safe output renaming.  File names and paths are modelled as
`List Char` (the characters of the Python `str`), the file system as an
existence predicate `List Char → Bool` for the path resolver and as a
map from paths to optional documents (lists of pages) for the merger.
The Python standard-library path helpers used by the script
(`str.split`, `'.'.join`, `os.path.split`, `os.path.basename`,
`os.path.join`, `os.path.normpath`, `os.makedirs`) are embedded from
their POSIX semantics.
-/

/-- A file name or path: the list of characters of the Python string. -/
abbrev FileName := List Char

/-- Python `str.split(sep)` for a single-character separator: always returns a
non-empty list; the empty string yields `[[]]`. -/
def splitOnChar (sep : Char) : List Char → List (List Char)
  | [] => [[]]
  | c :: cs =>
    if c = sep then [] :: splitOnChar sep cs
    else
      match splitOnChar sep cs with
      | [] => [[c]]
      | p :: ps => (c :: p) :: ps

/-- Python `sep.join(parts)` for a single-character separator. -/
def intercalateChar (sep : Char) : List (List Char) → List Char
  | [] => []
  | [x] => x
  | x :: y :: xs => x ++ sep :: intercalateChar sep (y :: xs)

/-- The decimal digit characters, as produced by Python `str(num)` one
digit at a time. -/
def decDigitChar (d : Nat) : Char :=
  if d = 0 then '0' else if d = 1 then '1' else if d = 2 then '2'
  else if d = 3 then '3' else if d = 4 then '4' else if d = 5 then '5'
  else if d = 6 then '6' else if d = 7 then '7' else if d = 8 then '8' else '9'

/-- Fuelled accumulator loop producing the decimal digits of `n`, most
significant first. -/
def natDigitsAux : Nat → Nat → List Char → List Char
  | 0, _, acc => acc
  | fuel + 1, n, acc =>
    if n < 10 then decDigitChar n :: acc
    else natDigitsAux fuel (n / 10) (decDigitChar (n % 10) :: acc)

/-- Python `str(n)` for a natural number `n`: its decimal digits. -/
def natDigits (n : Nat) : List Char := natDigitsAux (n + 1) n []

/-- Python `os.path.basename(p)` (POSIX): the part of `p` after its last slash. -/
def osPathBasename (p : List Char) : List Char :=
  (p.reverse.takeWhile (fun c => c != '/')).reverse

/-- Python `str.rstrip('/')`: remove trailing slashes. -/
def rstripSlash (p : List Char) : List Char :=
  (p.reverse.dropWhile (fun c => c == '/')).reverse

/-- Python `os.path.split(p)` (POSIX): split `p` at its last slash into head and
tail; the head keeps no trailing slashes unless it consists only of
slashes. -/
def osPathSplit (p : List Char) : List Char × List Char :=
  let head := (p.reverse.dropWhile (fun c => c != '/')).reverse
  let tail := (p.reverse.takeWhile (fun c => c != '/')).reverse
  if head ≠ [] ∧ head.any (fun c => c != '/') then (rstripSlash head, tail)
  else (head, tail)

/-- Python `os.path.join(a, b)` (POSIX) for two components. -/
def osPathJoin (a b : List Char) : List Char :=
  if b.take 1 = ['/'] then b
  else if a = [] ∨ a.getLast? = some '/' then a ++ b
  else a ++ '/' :: b

/-- Constant `MAX_NUM_OF_RENAME_ATTEMPTS` from `pdfmerge.py`. -/
def MAX_NUM_OF_RENAME_ATTEMPTS : Nat := 20

/-- Constant `DEFAULT_MERGE_OUTPUT_FILE_NAME` from `pdfmerge.py`. -/
def DEFAULT_MERGE_OUTPUT_FILE_NAME : FileName := "merged.pdf".data

/-- Exception `TooManyRenameAttemptsError` from `pdfmerge.py`: carries the two
constructor arguments the code passes when raising. -/
structure TooManyRenameAttemptsError where
  num_of_rename_attempts : Nat
  file_name : FileName
  deriving DecidableEq, Repr

/-- The candidate file name built in the body of the `while` loop of
`concat_num_to_file_name_if_necessary`:
`os.path.join(file_dirname, '.'.join([file_basename_first_part + str(num)] + file_basename_rest_parts))`,
with `file_dirname`, `file_basename_first_part` and
`file_basename_rest_parts` computed from `file` before the loop. -/
def renameCandidate (file : FileName) (num : Nat) : FileName :=
  let file_dirname := (osPathSplit file).1
  let file_basename := (osPathSplit file).2
  let parts := splitOnChar '.' file_basename
  osPathJoin file_dirname
    (intercalateChar '.' ((parts.headD [] ++ natDigits num) :: parts.tail))

/-- The `while os.path.exists(renamed_file)` loop of
`concat_num_to_file_name_if_necessary`, desugared into structural
recursion.  `num` is `num_of_rename_attempts`; `remaining` equals
`max_num_of_rename_attempts - num`, so it reaches `0` exactly when the
incremented counter would exceed the maximum and the code raises
`TooManyRenameAttemptsError(max_num_of_rename_attempts, file)`. -/
def renameLoop (ex : FileName → Bool) (file : FileName) (maxAttempts : Nat) :
    Nat → Nat → FileName → Except TooManyRenameAttemptsError FileName
  | num, remaining, renamed_file =>
    if ex renamed_file then
      match remaining with
      | 0 => .error ⟨maxAttempts, file⟩
      | r + 1 => renameLoop ex file maxAttempts (num + 1) r (renameCandidate file (num + 1))
    else .ok renamed_file

/-- Function `concat_num_to_file_name_if_necessary(file, max_num_of_rename_attempts)`
from `pdfmerge.py`, with the file system abstracted as the existence
predicate `ex` standing for `os.path.exists`. -/
def concat_num_to_file_name_if_necessary (ex : FileName → Bool) (file : FileName)
    (max_num_of_rename_attempts : Nat) :
    Except TooManyRenameAttemptsError FileName :=
  if ex file then
    renameLoop ex file max_num_of_rename_attempts 0 max_num_of_rename_attempts file
  else .ok file

/-- Function `rename_file_if_necessary(file, default_file_name, max_num_of_rename_attempts)`
from `pdfmerge.py`. -/
def rename_file_if_necessary (ex : FileName → Bool) (file : FileName)
    (default_file_name : FileName) (max_num_of_rename_attempts : Nat) :
    Except TooManyRenameAttemptsError FileName :=
  let file := if osPathBasename file = [] then file ++ default_file_name else file
  concat_num_to_file_name_if_necessary ex file max_num_of_rename_attempts

/-- One iteration of the `while` loop of
`concat_num_to_file_name_if_necessary`, as a step function on the loop
state `(num_of_rename_attempts, renamed_file)`: either the loop continues
with a new state, or it exits with a result. -/
def renameLoopStep (ex : FileName → Bool) (file : FileName) (maxAttempts : Nat) :
    Nat × FileName → (Nat × FileName) ⊕ Except TooManyRenameAttemptsError FileName
  | (num, renamed_file) =>
    if ex renamed_file then
      if num + 1 > maxAttempts then .inr (.error ⟨maxAttempts, file⟩)
      else .inl (num + 1, renameCandidate file (num + 1))
    else .inr (.ok renamed_file)

/-- Run the `while` loop of `concat_num_to_file_name_if_necessary` for at
most `fuel` iterations, reporting `none` if it has not exited by then. -/
def runRenameLoop (ex : FileName → Bool) (file : FileName) (maxAttempts : Nat) :
    Nat → Nat × FileName → Option (Except TooManyRenameAttemptsError FileName)
  | 0, _ => none
  | fuel + 1, st =>
    match renameLoopStep ex file maxAttempts st with
    | .inr r => some r
    | .inl st' => runRenameLoop ex file maxAttempts fuel st'

/-- The `for pdf_file in pdf_files:` loop of `merge_pdfs`: open each input
(`fitz.Document(pdf_file)`, which fails when the path does not hold a
valid document) and append its pages to `result_pdf`
(`result_pdf.insertPDF(pdf_doc)`).  The file system `docs` maps each path
to the pages of the document stored there, `none` when opening fails. -/
def readAndAppendPdfs {α : Type} (docs : FileName → Option (List α)) :
    List FileName → List α → Except Unit (List α)
  | [], result_pdf => .ok result_pdf
  | pdf_file :: rest, result_pdf =>
    match docs pdf_file with
    | none => .error ()
    | some pdf_doc => readAndAppendPdfs docs rest (result_pdf ++ pdf_doc)

/-- Python `os.path.normpath(p)` (POSIX semantics, as in CPython `posixpath`). -/
def normpath (path : List Char) : List Char :=
  if path = [] then ['.']
  else
    let initialSlashes : Nat :=
      if path.take 1 = ['/'] then
        if path.take 2 = ['/', '/'] ∧ path.take 3 ≠ ['/', '/', '/'] then 2 else 1
      else 0
    let comps := splitOnChar '/' path
    let newComps := comps.foldl (fun newComps comp =>
      if comp = [] ∨ comp = ['.'] then newComps
      else if comp ≠ ['.', '.'] ∨ (initialSlashes = 0 ∧ newComps = []) ∨
          (newComps ≠ [] ∧ newComps.getLast? = some ['.', '.']) then
        newComps ++ [comp]
      else if newComps ≠ [] then newComps.dropLast
      else newComps) []
    let joined := intercalateChar '/' newComps
    let path2 := List.replicate initialSlashes '/' ++ joined
    if path2 = [] then ['.'] else path2

/-- Modelled from the CPython semantics of `os.makedirs(name, exist_ok=True)`
as used by `merge_pdfs`: the call creates any missing intermediate
directories and succeeds, except that the empty path name raises
`FileNotFoundError` (CPython issue 33968, the reason the script wraps the
directory name in `os.path.normpath`).  Failure modes that do not depend
on the path string (e.g. permissions) are outside the model. -/
def makedirsExistOk (name : List Char) : Except Unit Unit :=
  if name = [] then .error () else .ok ()

/-- The exceptions `merge_pdfs` can let escape: a failure to open or parse
an input document, or a failure of the directory-creation step. -/
inductive MergeError
  | docOpenError
  | dirCreationError
  deriving DecidableEq, Repr

/-- Function `merge_pdfs(outfile, pdf_files)` from `pdfmerge.py`.  Returns the file
system after the call paired with the exception it raised, if any: the
inputs are read and appended first, then
`os.makedirs(os.path.normpath(os.path.dirname(outfile)), exist_ok=True)`
runs, and only then does `result_pdf.save(outfile)` store the accumulated
pages at `outfile`.  An exception leaves the file system unchanged. -/
def merge_pdfs {α : Type} (docs : FileName → Option (List α))
    (outfile : FileName) (pdf_files : List FileName) :
    (FileName → Option (List α)) × Option MergeError :=
  match readAndAppendPdfs docs pdf_files [] with
  | .error _ => (docs, some .docOpenError)
  | .ok result_pdf =>
    match makedirsExistOk (normpath (osPathSplit outfile).1) with
    | .error _ => (docs, some .dirCreationError)
    | .ok _ => (fun p => if p = outfile then some result_pdf else docs p, none)

/-- Fixture: a file system on which no path exists. -/
def exNone : FileName → Bool := fun _ => false

/-- Fixture: a file system on which exactly the listed paths exist. -/
def exTaken (taken : List FileName) : FileName → Bool := fun f => taken.contains f

/-- Fixture for the C1 scenario: `name.ext` and `name1.ext` … `name20.ext`
all exist. -/
def exC1scenario : FileName → Bool :=
  exTaken (["name.ext", "name1.ext", "name2.ext", "name3.ext", "name4.ext",
    "name5.ext", "name6.ext", "name7.ext", "name8.ext", "name9.ext",
    "name10.ext", "name11.ext", "name12.ext", "name13.ext", "name14.ext",
    "name15.ext", "name16.ext", "name17.ext", "name18.ext", "name19.ext",
    "name20.ext"].map String.data)

/-- Fixture: a document store where every open fails. -/
def docsNone : FileName → Option (List Nat) := fun _ => none

/-- Fixture: a document store with a two-page, a zero-page and a one-page
document. -/
def docsABC : FileName → Option (List Nat) := fun f =>
  if f = "a.pdf".data then some [10, 11]
  else if f = "b.pdf".data then some []
  else if f = "c.pdf".data then some [20]
  else none

theorem splitOnChar_ne_nil (sep : Char) (s : List Char) : splitOnChar sep s ≠ [] := by
  induction s with
  | nil => simp [splitOnChar]
  | cons c cs ih =>
    simp only [splitOnChar]
    split
    · simp
    · split
      · simp
      · simp

theorem mem_splitOnChar (sep : Char) (s : List Char) :
    ∀ x ∈ splitOnChar sep s, ∀ c ∈ x, c ≠ sep ∧ c ∈ s := by
  induction s with
  | nil =>
    intro x hx c hc
    simp [splitOnChar] at hx
    subst hx
    simp at hc
  | cons a as ih =>
    intro x hx c hc
    simp only [splitOnChar] at hx
    split at hx
    · rcases List.mem_cons.1 hx with h | h
      · subst h; simp at hc
      · obtain ⟨h1, h2⟩ := ih x h c hc
        exact ⟨h1, List.mem_cons_of_mem _ h2⟩
    · rename_i ha
      rcases hsplit : splitOnChar sep as with _ | ⟨p, ps⟩
      · exact absurd hsplit (splitOnChar_ne_nil sep as)
      · rw [hsplit] at hx
        rcases List.mem_cons.1 hx with h | h
        · subst h
          rcases List.mem_cons.1 hc with h | h
          · subst h; exact ⟨ha, List.mem_cons_self _ _⟩
          · obtain ⟨h1, h2⟩ := ih p (by rw [hsplit]; exact List.mem_cons_self _ _) c h
            exact ⟨h1, List.mem_cons_of_mem _ h2⟩
        · obtain ⟨h1, h2⟩ := ih x (by rw [hsplit]; exact List.mem_cons_of_mem _ h) c hc
          exact ⟨h1, List.mem_cons_of_mem _ h2⟩

theorem intercalateChar_cons_cons (sep : Char) (c : Char) (x : List Char)
    (L : List (List Char)) :
    intercalateChar sep ((c :: x) :: L) = c :: intercalateChar sep (x :: L) := by
  cases L <;> simp [intercalateChar]

/-- Joining the pieces of a split recovers the original string. -/
theorem intercalate_splitOnChar (sep : Char) (s : List Char) :
    intercalateChar sep (splitOnChar sep s) = s := by
  induction s with
  | nil => simp [splitOnChar, intercalateChar]
  | cons c cs ih =>
    simp only [splitOnChar]
    split
    · rename_i hc
      subst hc
      rcases hsplit : splitOnChar c cs with _ | ⟨p, ps⟩
      · exact absurd hsplit (splitOnChar_ne_nil c cs)
      · rw [hsplit] at ih
        simp [intercalateChar, ih]
    · rcases hsplit : splitOnChar sep cs with _ | ⟨p, ps⟩
      · exact absurd hsplit (splitOnChar_ne_nil sep cs)
      · rw [hsplit] at ih
        rw [intercalateChar_cons_cons, ih]

theorem splitOnChar_of_not_mem (sep : Char) (s : List Char) (h : sep ∉ s) :
    splitOnChar sep s = [s] := by
  induction s with
  | nil => simp [splitOnChar]
  | cons c cs ih =>
    simp only [splitOnChar]
    rw [if_neg (by intro hc; exact h (hc ▸ List.mem_cons_self _ _))]
    rw [ih (fun hm => h (List.mem_cons_of_mem _ hm))]

theorem splitOnChar_append_sep (sep : Char) (x t : List Char) (hx : sep ∉ x) :
    splitOnChar sep (x ++ sep :: t) = x :: splitOnChar sep t := by
  induction x with
  | nil => simp [splitOnChar]
  | cons c cs ih =>
    simp only [List.cons_append, splitOnChar]
    rw [if_neg (by intro hc; exact hx (hc ▸ List.mem_cons_self _ _))]
    rw [List.append_eq, ih (fun hm => hx (List.mem_cons_of_mem _ hm))]

/-- Splitting a join recovers the pieces, provided none contains the
separator. -/
theorem splitOnChar_intercalate (sep : Char) (L : List (List Char))
    (hne : L ≠ []) (hfree : ∀ x ∈ L, sep ∉ x) :
    splitOnChar sep (intercalateChar sep L) = L := by
  induction L with
  | nil => exact absurd rfl hne
  | cons x xs ih =>
    cases xs with
    | nil =>
      simp only [intercalateChar]
      exact splitOnChar_of_not_mem sep x (hfree x (List.mem_cons_self _ _))
    | cons y ys =>
      simp only [intercalateChar]
      rw [splitOnChar_append_sep sep x _ (hfree x (List.mem_cons_self _ _))]
      rw [ih (by simp) (fun z hz => hfree z (List.mem_cons_of_mem _ hz))]

theorem mem_intercalateChar (sep : Char) (L : List (List Char)) :
    ∀ c ∈ intercalateChar sep L, c = sep ∨ ∃ x ∈ L, c ∈ x := by
  induction L with
  | nil => intro c hc; simp [intercalateChar] at hc
  | cons x xs ih =>
    cases xs with
    | nil =>
      intro c hc
      simp only [intercalateChar] at hc
      exact Or.inr ⟨x, List.mem_cons_self _ _, hc⟩
    | cons y ys =>
      intro c hc
      simp only [intercalateChar] at hc
      rcases List.mem_append.1 hc with h | h
      · exact Or.inr ⟨x, List.mem_cons_self _ _, h⟩
      · rcases List.mem_cons.1 h with h | h
        · exact Or.inl h
        · rcases ih c h with h | ⟨z, hz, hcz⟩
          · exact Or.inl h
          · exact Or.inr ⟨z, List.mem_cons_of_mem _ hz, hcz⟩

theorem decDigitChar_mem (d : Nat) :
    decDigitChar d ∈ ['0', '1', '2', '3', '4', '5', '6', '7', '8', '9'] := by
  unfold decDigitChar
  repeat' split
  all_goals simp

theorem natDigitsAux_mem (fuel n : Nat) (acc : List Char) :
    ∀ c ∈ natDigitsAux fuel n acc,
      c ∈ acc ∨ c ∈ ['0', '1', '2', '3', '4', '5', '6', '7', '8', '9'] := by
  induction fuel generalizing n acc with
  | zero => intro c hc; exact Or.inl hc
  | succ fuel ih =>
    intro c hc
    simp only [natDigitsAux] at hc
    split at hc
    · rcases List.mem_cons.1 hc with h | h
      · exact Or.inr (h ▸ decDigitChar_mem n)
      · exact Or.inl h
    · rcases ih (n / 10) (decDigitChar (n % 10) :: acc) c hc with h | h
      · rcases List.mem_cons.1 h with h | h
        · exact Or.inr (h ▸ decDigitChar_mem (n % 10))
        · exact Or.inl h
      · exact Or.inr h

theorem natDigits_mem (n : Nat) :
    ∀ c ∈ natDigits n, c ∈ ['0', '1', '2', '3', '4', '5', '6', '7', '8', '9'] := by
  intro c hc
  rcases natDigitsAux_mem (n + 1) n [] c hc with h | h
  · simp at h
  · exact h

theorem natDigits_ne_dot (n : Nat) : '.' ∉ natDigits n := by
  intro h
  have := natDigits_mem n '.' h
  simp at this

theorem natDigits_ne_slash (n : Nat) : '/' ∉ natDigits n := by
  intro h
  have := natDigits_mem n '/' h
  simp at this

theorem natDigitsAux_ne_nil (fuel n : Nat) (acc : List Char)
    (h : fuel ≠ 0 ∨ acc ≠ []) : natDigitsAux fuel n acc ≠ [] := by
  induction fuel generalizing n acc with
  | zero =>
    rcases h with h | h
    · exact absurd rfl h
    · exact h
  | succ fuel ih =>
    simp only [natDigitsAux]
    split
    · simp
    · exact ih (n / 10) _ (Or.inr (by simp))

theorem natDigits_ne_nil (n : Nat) : natDigits n ≠ [] :=
  natDigitsAux_ne_nil (n + 1) n [] (Or.inl (by simp))

theorem osPathSplit_snd (p : List Char) : (osPathSplit p).2 = osPathBasename p := by
  simp only [osPathSplit, osPathBasename]
  split <;> rfl

theorem osPathBasename_no_slash (p : List Char) : ∀ c ∈ osPathBasename p, c ≠ '/' := by
  intro c hc
  simp only [osPathBasename, List.mem_reverse] at hc
  have := List.mem_takeWhile_imp hc
  simpa using this

theorem osPathBasename_of_no_slash (p : List Char) (h : '/' ∉ p) :
    osPathBasename p = p := by
  simp only [osPathBasename]
  rw [List.takeWhile_eq_self_iff.2, List.reverse_reverse]
  intro c hc
  simp only [bne_iff_ne, ne_eq]
  intro hcs
  exact h (hcs ▸ List.mem_reverse.1 hc)

theorem osPathSplit_of_no_slash (p : List Char) (h : '/' ∉ p) :
    osPathSplit p = ([], p) := by
  have htail : (p.reverse.takeWhile (fun c => c != '/')).reverse = p := osPathBasename_of_no_slash p h
  have hdrop : p.reverse.dropWhile (fun c => c != '/') = [] := by
    rw [List.dropWhile_eq_nil_iff]
    intro c hc
    simp only [bne_iff_ne, ne_eq, Decidable.not_not]
    by_contra hcs
    exact h ((by simpa using hcs : c = '/') ▸ List.mem_reverse.1 hc)
  simp only [osPathSplit, hdrop, List.reverse_nil, htail]
  simp

theorem head?_dropWhile_false {α : Type} (q : α → Bool) (l : List α) (c : α)
    (h : (l.dropWhile q).head? = some c) : q c = false := by
  induction l with
  | nil => simp at h
  | cons a t ih =>
    rw [List.dropWhile_cons] at h
    split at h
    · exact ih h
    · rename_i hq
      simp only [List.head?_cons, Option.some.injEq] at h
      subst h
      simpa using hq

theorem rstripSlash_getLast?_ne (p : List Char) :
    (rstripSlash p).getLast? ≠ some '/' := by
  simp only [rstripSlash, List.getLast?_reverse]
  intro h
  have := head?_dropWhile_false (fun c => c == '/') p.reverse '/' h
  simp at this

/-- Shape of the head returned by `osPathSplit`: empty, all slashes, or
not ending in a slash. -/
theorem osPathSplit_fst_shape (p : List Char) :
    (osPathSplit p).1 = [] ∨ (∀ c ∈ (osPathSplit p).1, c = '/') ∨
      (osPathSplit p).1.getLast? ≠ some '/' := by
  simp only [osPathSplit]
  split
  · right; right
    exact rstripSlash_getLast?_ne _
  · rename_i hcond
    rw [not_and_or] at hcond
    rcases hcond with h | h
    · left
      exact not_not.1 h
    · right; left
      intro c hc
      have hfalse := List.any_eq_false.1 (Bool.not_eq_true _ ▸ h) c hc
      simpa using hfalse

theorem takeWhile_append_all {α : Type} (p : α → Bool) (l1 l2 : List α)
    (h : ∀ c ∈ l1, p c = true) :
    (l1 ++ l2).takeWhile p = l1 ++ l2.takeWhile p := by
  induction l1 with
  | nil => simp
  | cons a t ih =>
    simp only [List.cons_append, List.takeWhile_cons]
    rw [if_pos (h a (List.mem_cons_self _ _)),
      ih (fun c hc => h c (List.mem_cons_of_mem _ hc))]

theorem dropWhile_append_all {α : Type} (p : α → Bool) (l1 l2 : List α)
    (h : ∀ c ∈ l1, p c = true) :
    (l1 ++ l2).dropWhile p = l2.dropWhile p := by
  induction l1 with
  | nil => simp
  | cons a t ih =>
    simp only [List.cons_append, List.dropWhile_cons]
    rw [if_pos (h a (List.mem_cons_self _ _))]
    exact ih (fun c hc => h c (List.mem_cons_of_mem _ hc))

theorem dropWhile_reverse_of_getLast {α : Type} (q : α → Bool) (a : List α) (c : α)
    (h : a.getLast? = some c) (hq : q c = false) :
    a.reverse.dropWhile q = a.reverse := by
  have hH : a.reverse.head? = some c := by rw [List.head?_reverse]; exact h
  cases ar : a.reverse with
  | nil => rfl
  | cons x t =>
    rw [ar] at hH
    simp only [List.head?_cons, Option.some.injEq] at hH
    subst hH
    rw [List.dropWhile_cons, if_neg (by simp [hq])]

theorem takeWhile_reverse_of_getLast {α : Type} (q : α → Bool) (a : List α) (c : α)
    (h : a.getLast? = some c) (hq : q c = false) :
    a.reverse.takeWhile q = [] := by
  have hH : a.reverse.head? = some c := by rw [List.head?_reverse]; exact h
  cases ar : a.reverse with
  | nil => rfl
  | cons x t =>
    rw [ar] at hH
    simp only [List.head?_cons, Option.some.injEq] at hH
    subst hH
    rw [List.takeWhile_cons, if_neg (by simp [hq])]

/-- Splitting the join of a split-shaped head with a slash-free non-empty
tail recovers both components. -/
theorem osPathSplit_osPathJoin (a b : List Char) (hb : b ≠ [])
    (hbf : ∀ c ∈ b, c ≠ '/')
    (ha : a = [] ∨ (∀ c ∈ a, c = '/') ∨ a.getLast? ≠ some '/') :
    osPathSplit (osPathJoin a b) = (a, b) := by
  have hbrev : ∀ c ∈ b.reverse, (fun c => c != '/') c = true := by
    intro c hc
    simpa using hbf c (List.mem_reverse.1 hc)
  have hnotb : ¬(b.take 1 = ['/']) := by
    cases b with
    | nil => exact absurd rfl hb
    | cons c t =>
      simp only [List.take_succ_cons, List.take_zero]
      intro hEq
      exact hbf c (List.mem_cons_self _ _) (by simpa using hEq)
  by_cases hae : a = []
  · subst hae
    simp only [osPathJoin, if_neg hnotb]
    rw [if_pos (Or.inl trivial), List.nil_append]
    exact osPathSplit_of_no_slash b (fun hm => (hbf '/' hm) rfl)
  · rcases ha with h | hslash | hlast
    · exact absurd h hae
    · have hglsl : a.getLast? = some '/' := by
        rw [List.getLast?_eq_getLast a hae]
        exact congrArg some (hslash _ (List.getLast_mem hae))
      simp only [osPathJoin, if_neg hnotb]
      rw [if_pos (Or.inr hglsl)]
      have hrev : (a ++ b).reverse = b.reverse ++ a.reverse := List.reverse_append a b
      have hdrop : (a ++ b).reverse.dropWhile (fun c => c != '/') = a.reverse := by
        rw [hrev, dropWhile_append_all _ _ _ hbrev]
        exact dropWhile_reverse_of_getLast _ a '/' hglsl (by simp)
      have htake : (a ++ b).reverse.takeWhile (fun c => c != '/') = b.reverse := by
        rw [hrev, takeWhile_append_all _ _ _ hbrev]
        rw [takeWhile_reverse_of_getLast _ a '/' hglsl (by simp), List.append_nil]
      simp only [osPathSplit, hdrop, htake, List.reverse_reverse]
      rw [if_neg]
      rw [not_and_or]
      right
      rw [Bool.not_eq_true, List.any_eq_false]
      intro x hx
      simp [hslash x hx]
    · simp only [osPathJoin, if_neg hnotb]
      rw [if_neg (fun hc => hc.elim hae hlast)]
      have hgne : a.getLast hae ≠ '/' := by
        intro h
        exact hlast (by rw [List.getLast?_eq_getLast a hae, h])
      have hrev : (a ++ '/' :: b).reverse = b.reverse ++ '/' :: a.reverse := by
        rw [List.reverse_append]
        simp
      have hdrop : (a ++ '/' :: b).reverse.dropWhile (fun c => c != '/')
          = '/' :: a.reverse := by
        rw [hrev, dropWhile_append_all _ _ _ hbrev, List.dropWhile_cons,
          if_neg (by simp)]
      have htake : (a ++ '/' :: b).reverse.takeWhile (fun c => c != '/')
          = b.reverse := by
        rw [hrev, takeWhile_append_all _ _ _ hbrev, List.takeWhile_cons,
          if_neg (by simp), List.append_nil]
      have hstrip : rstripSlash (a ++ ['/']) = a := by
        simp only [rstripSlash, List.reverse_append, List.reverse_cons,
          List.reverse_nil, List.nil_append, List.singleton_append,
          List.dropWhile_cons, if_pos (by simp : (('/' == '/') = true))]
        rw [dropWhile_reverse_of_getLast _ a (a.getLast hae)
          (List.getLast?_eq_getLast a hae) (by simp [hgne]), List.reverse_reverse]
      simp only [osPathSplit, hdrop, htake, List.reverse_reverse,
        List.reverse_cons]
      rw [if_pos ⟨by simp, List.any_eq_true.2
        ⟨a.getLast hae, List.mem_append_left _ (List.getLast_mem hae),
          by simp [hgne]⟩⟩]
      rw [hstrip]

theorem renameLoop_exit (ex : FileName → Bool) (file : FileName)
    (maxAttempts num remaining : Nat) (renamed : FileName)
    (h : ex renamed = false) :
    renameLoop ex file maxAttempts num remaining renamed = .ok renamed := by
  unfold renameLoop
  simp [h]

theorem renameLoop_exhausted (ex : FileName → Bool) (file : FileName)
    (maxAttempts num : Nat) (renamed : FileName) (h : ex renamed = true) :
    renameLoop ex file maxAttempts num 0 renamed = .error ⟨maxAttempts, file⟩ := by
  unfold renameLoop
  simp [h]

theorem renameLoop_next (ex : FileName → Bool) (file : FileName)
    (maxAttempts num r : Nat) (renamed : FileName) (h : ex renamed = true) :
    renameLoop ex file maxAttempts num (r + 1) renamed
      = renameLoop ex file maxAttempts (num + 1) r (renameCandidate file (num + 1)) := by
  conv_lhs => rw [renameLoop]
  simp [h]

theorem renameLoop_ok_shape (ex : FileName → Bool) (file : FileName) (maxAttempts : Nat) :
    ∀ (r num : Nat) (renamed res : FileName),
      renameLoop ex file maxAttempts num r renamed = .ok res →
      res = renamed ∨ ∃ n, num < n ∧ res = renameCandidate file n := by
  intro r
  induction r with
  | zero =>
    intro num renamed res h
    cases hex : ex renamed with
    | false =>
      rw [renameLoop_exit ex file maxAttempts num 0 renamed hex] at h
      exact Or.inl (Except.ok.inj h).symm
    | true =>
      rw [renameLoop_exhausted ex file maxAttempts num renamed hex] at h
      exact absurd h (by simp)
  | succ r ih =>
    intro num renamed res h
    cases hex : ex renamed with
    | false =>
      rw [renameLoop_exit ex file maxAttempts num (r + 1) renamed hex] at h
      exact Or.inl (Except.ok.inj h).symm
    | true =>
      rw [renameLoop_next ex file maxAttempts num r renamed hex] at h
      rcases ih (num + 1) (renameCandidate file (num + 1)) res h with h1 | ⟨n, hn, hres⟩
      · exact Or.inr ⟨num + 1, by omega, h1⟩
      · exact Or.inr ⟨n, by omega, hres⟩

theorem renameLoop_all_taken (ex : FileName → Bool) (file : FileName) (maxAttempts : Nat) :
    ∀ (r num : Nat) (renamed : FileName), num + r = maxAttempts →
      ex renamed = true →
      (∀ n, num < n → n ≤ maxAttempts → ex (renameCandidate file n) = true) →
      renameLoop ex file maxAttempts num r renamed = .error ⟨maxAttempts, file⟩ := by
  intro r
  induction r with
  | zero =>
    intro num renamed _ hex _
    exact renameLoop_exhausted ex file maxAttempts num renamed hex
  | succ r ih =>
    intro num renamed hsum hex hall
    rw [renameLoop_next ex file maxAttempts num r renamed hex]
    exact ih (num + 1) (renameCandidate file (num + 1)) (by omega)
      (hall (num + 1) (by omega) (by omega))
      (fun n h1 h2 => hall n (by omega) h2)

theorem concat_num_first_candidate_free (ex : FileName → Bool) (file : FileName)
    (maxAttempts : Nat) (hmax : 1 ≤ maxAttempts) (hex : ex file = true)
    (hfree : ex (renameCandidate file 1) = false) :
    concat_num_to_file_name_if_necessary ex file maxAttempts
      = .ok (renameCandidate file 1) := by
  obtain ⟨r, rfl⟩ : ∃ r, maxAttempts = r + 1 := ⟨maxAttempts - 1, by omega⟩
  simp only [concat_num_to_file_name_if_necessary, hex, if_true]
  rw [renameLoop_next ex file (r + 1) 0 r file hex]
  exact renameLoop_exit ex file (r + 1) 1 r (renameCandidate file 1) hfree

theorem runRenameLoop_reaches (ex : FileName → Bool) (file : FileName) (maxAttempts : Nat) :
    ∀ (r num : Nat) (renamed : FileName), num + r = maxAttempts →
      runRenameLoop ex file maxAttempts (r + 1) (num, renamed)
        = some (renameLoop ex file maxAttempts num r renamed) := by
  intro r
  induction r with
  | zero =>
    intro num renamed hsum
    simp only [runRenameLoop, renameLoopStep]
    cases hex : ex renamed with
    | false => rw [renameLoop_exit ex file maxAttempts num 0 renamed hex]; simp
    | true =>
      rw [renameLoop_exhausted ex file maxAttempts num renamed hex]
      simp [show num + 1 > maxAttempts by omega]
  | succ r ih =>
    intro num renamed hsum
    simp only [runRenameLoop, renameLoopStep]
    cases hex : ex renamed with
    | false => rw [renameLoop_exit ex file maxAttempts num (r + 1) renamed hex]; simp
    | true =>
      rw [renameLoop_next ex file maxAttempts num r renamed hex]
      simp only [if_true, show ¬(num + 1 > maxAttempts) by omega, if_false]
      exact ih (num + 1) (renameCandidate file (num + 1)) (by omega)

theorem intercalateChar_cons_split (sep : Char) (x t : List Char) :
    intercalateChar sep (x :: splitOnChar sep t) = x ++ sep :: t := by
  rcases hsp : splitOnChar sep t with _ | ⟨p, ps⟩
  · exact absurd hsp (splitOnChar_ne_nil _ t)
  · have hstep : intercalateChar sep (x :: p :: ps)
        = x ++ sep :: intercalateChar sep (p :: ps) := rfl
    rw [hstep, ← hsp, intercalate_splitOnChar]

/-- The split of a rename candidate: same directory, and the basename is
the rejoined segments with the decimal attempt number appended to the
first segment. -/
theorem renameCandidate_shape (file : FileName) (n : Nat) :
    osPathSplit (renameCandidate file n)
      = ((osPathSplit file).1,
          intercalateChar '.'
            (((splitOnChar '.' (osPathSplit file).2).headD [] ++ natDigits n)
              :: (splitOnChar '.' (osPathSplit file).2).tail)) ∧
    splitOnChar '.' (osPathSplit (renameCandidate file n)).2
      = ((splitOnChar '.' (osPathSplit file).2).headD [] ++ natDigits n)
          :: (splitOnChar '.' (osPathSplit file).2).tail := by
  have hbase_ns : ∀ c ∈ (osPathSplit file).2, c ≠ '/' := by
    rw [osPathSplit_snd]
    exact osPathBasename_no_slash file
  rcases hparts : splitOnChar '.' (osPathSplit file).2 with _ | ⟨p0, ptail⟩
  · exact absurd hparts (splitOnChar_ne_nil _ _)
  · have hmemparts : ∀ x ∈ p0 :: ptail, ∀ c ∈ x, c ≠ '.' ∧ c ∈ (osPathSplit file).2 := by
      rw [← hparts]
      exact mem_splitOnChar '.' (osPathSplit file).2
    have hdotfree : ∀ x ∈ (p0 ++ natDigits n) :: ptail, '.' ∉ x := by
      intro x hx hdot
      rcases List.mem_cons.1 hx with h | h
      · subst h
        rcases List.mem_append.1 hdot with h | h
        · exact (hmemparts p0 (List.mem_cons_self _ _) '.' h).1 rfl
        · exact natDigits_ne_dot n h
      · exact (hmemparts x (List.mem_cons_of_mem _ h) '.' hdot).1 rfl
    have hnb_ne : intercalateChar '.' ((p0 ++ natDigits n) :: ptail) ≠ [] := by
      cases ptail with
      | nil =>
        simp only [intercalateChar]
        intro h
        exact natDigits_ne_nil n (List.append_eq_nil.1 h).2
      | cons y ys => simp [intercalateChar]
    have hnb_ns : ∀ c ∈ intercalateChar '.' ((p0 ++ natDigits n) :: ptail), c ≠ '/' := by
      intro c hc
      rcases mem_intercalateChar '.' _ c hc with h | ⟨x, hx, hcx⟩
      · subst h; decide
      · rcases List.mem_cons.1 hx with h | h
        · subst h
          rcases List.mem_append.1 hcx with h | h
          · exact hbase_ns c (hmemparts p0 (List.mem_cons_self _ _) c h).2
          · exact fun hcs => natDigits_ne_slash n (hcs ▸ h)
        · exact hbase_ns c (hmemparts x (List.mem_cons_of_mem _ h) c hcx).2
    have hjoin := osPathSplit_osPathJoin (osPathSplit file).1
      (intercalateChar '.' ((p0 ++ natDigits n) :: ptail)) hnb_ne hnb_ns
      (osPathSplit_fst_shape file)
    have hcand : renameCandidate file n
        = osPathJoin (osPathSplit file).1
            (intercalateChar '.' ((p0 ++ natDigits n) :: ptail)) := by
      simp only [renameCandidate, hparts, List.headD_cons, List.tail_cons]
    constructor
    · rw [hcand, hjoin]
      simp
    · rw [hcand, hjoin]
      simp only [List.headD_cons, List.tail_cons]
      exact splitOnChar_intercalate '.' _ (by simp) hdotfree

theorem readAndAppendPdfs_ok {α : Type} (docs : FileName → Option (List α)) :
    ∀ (pdf_files : List FileName) (ds : List (List α)) (acc : List α),
      pdf_files.mapM docs = some ds →
      readAndAppendPdfs docs pdf_files acc = .ok (acc ++ ds.flatten) := by
  intro pdf_files
  induction pdf_files with
  | nil =>
    intro ds acc h
    simp only [List.mapM_nil, pure, Option.some.injEq] at h
    subst h
    simp [readAndAppendPdfs]
  | cons f fs ih =>
    intro ds acc h
    cases hd : docs f with
    | none =>
      rw [List.mapM_cons, hd] at h
      simp at h
    | some d =>
      cases hrest : fs.mapM docs with
      | none =>
        rw [List.mapM_cons, hd, hrest] at h
        simp at h
      | some rest =>
        rw [List.mapM_cons, hd, hrest] at h
        simp at h
        subst h
        simp only [readAndAppendPdfs, hd]
        rw [ih rest (acc ++ d) hrest]
        simp

theorem readAndAppendPdfs_error {α : Type} (docs : FileName → Option (List α)) :
    ∀ (pdf_files : List FileName) (acc : List α) (f : FileName),
      f ∈ pdf_files → docs f = none →
      readAndAppendPdfs docs pdf_files acc = .error () := by
  intro pdf_files
  induction pdf_files with
  | nil => intro acc f hf _; simp at hf
  | cons g gs ih =>
    intro acc f hf hnone
    simp only [readAndAppendPdfs]
    cases hd : docs g with
    | none => rfl
    | some d =>
      rcases List.mem_cons.1 hf with h | h
      · subst h
        rw [hd] at hnone
        exact absurd hnone (by simp)
      · exact ih (acc ++ d) f h hnone

theorem normpath_nil : normpath [] = ['.'] := rfl

theorem ite_nil_dot_ne_nil (x : List Char) : (if x = [] then ['.'] else x) ≠ [] := by
  split
  · simp
  · assumption

theorem normpath_ne_nil (p : List Char) : normpath p ≠ [] := by
  unfold normpath
  split
  · simp
  · exact ite_nil_dot_ne_nil _

/-- C4: for every output path whose file does not already exist and whose
final path component is non-empty, resolution returns the path unchanged
(the rename loop is never entered, so zero rename attempts are made). -/
theorem C4_fresh_path_returned_unchanged (ex : FileName → Bool)
    (file default_file_name : FileName) (maxAttempts : Nat)
    (hex : ex file = false) (hbase : osPathBasename file ≠ []) :
    rename_file_if_necessary ex file default_file_name maxAttempts = .ok file := by
  simp only [rename_file_if_necessary, if_neg hbase,
    concat_num_to_file_name_if_necessary, hex]
  simp

/-- Witness for C4: a fresh `output.pdf` on an empty file system is
returned unchanged. -/
theorem C4_fresh_path_returned_unchanged_witness :
    exNone "output.pdf".data = false ∧ osPathBasename "output.pdf".data ≠ [] ∧
    rename_file_if_necessary exNone "output.pdf".data DEFAULT_MERGE_OUTPUT_FILE_NAME
      MAX_NUM_OF_RENAME_ATTEMPTS = .ok "output.pdf".data :=
  ⟨rfl, by decide, C4_fresh_path_returned_unchanged exNone "output.pdf".data
    DEFAULT_MERGE_OUTPUT_FILE_NAME MAX_NUM_OF_RENAME_ATTEMPTS rfl (by decide)⟩

/-- C6: a requested path ending in a directory separator (empty final
component) first gets the default file name appended to form the working
path, and collision resolution is then applied to that working path: the
working path itself is returned when free, and its first numbered
candidate when only the working path is taken. -/
theorem C6_directory_request_appends_default (ex : FileName → Bool)
    (file default_file_name : FileName) (maxAttempts : Nat)
    (hdir : osPathBasename file = []) :
    rename_file_if_necessary ex file default_file_name maxAttempts
      = concat_num_to_file_name_if_necessary ex (file ++ default_file_name)
          maxAttempts ∧
    (ex (file ++ default_file_name) = false →
      rename_file_if_necessary ex file default_file_name maxAttempts
        = .ok (file ++ default_file_name)) ∧
    (1 ≤ maxAttempts → ex (file ++ default_file_name) = true →
      ex (renameCandidate (file ++ default_file_name) 1) = false →
      rename_file_if_necessary ex file default_file_name maxAttempts
        = .ok (renameCandidate (file ++ default_file_name) 1)) := by
  have h1 : rename_file_if_necessary ex file default_file_name maxAttempts
      = concat_num_to_file_name_if_necessary ex (file ++ default_file_name)
          maxAttempts := by
    simp only [rename_file_if_necessary, if_pos hdir]
  refine ⟨h1, ?_, ?_⟩
  · intro hfree
    rw [h1]
    simp only [concat_num_to_file_name_if_necessary, hfree]
    simp
  · intro hmax hex hfree
    rw [h1]
    exact concat_num_first_candidate_free ex _ maxAttempts hmax hex hfree

/-- Witness for C6: `out/` resolves to `out/merged.pdf` on an empty file
system, and to `out/merged1.pdf` when only `out/merged.pdf` exists. -/
theorem C6_directory_request_appends_default_witness :
    osPathBasename "out/".data = [] ∧
    rename_file_if_necessary exNone "out/".data "merged.pdf".data 20
      = .ok ("out/".data ++ "merged.pdf".data) ∧
    rename_file_if_necessary (exTaken ["out/merged.pdf".data]) "out/".data
      "merged.pdf".data 20
      = .ok (renameCandidate ("out/".data ++ "merged.pdf".data) 1) :=
  ⟨by decide,
   (C6_directory_request_appends_default exNone "out/".data "merged.pdf".data 20
     (by decide)).2.1 rfl,
   (C6_directory_request_appends_default (exTaken ["out/merged.pdf".data]) "out/".data
     "merged.pdf".data 20 (by decide)).2.2 (by decide) (by decide) (by decide)⟩

/-- C5: on a collision, the numeric suffix goes immediately after the
first dot-delimited segment: `archive.tar.gz` yields `archive1.tar.gz`
(not `archive.tar1.gz` or `archive.tar.gz1`), and a dot-free name such as
`report` takes the suffix at its end, yielding `report1`. -/
theorem C5_suffix_after_first_segment (ex : FileName → Bool) (maxAttempts : Nat)
    (hmax : 1 ≤ maxAttempts)
    (ha : ex "archive.tar.gz".data = true) (hb : ex "archive1.tar.gz".data = false)
    (hc : ex "report".data = true) (hd : ex "report1".data = false) :
    concat_num_to_file_name_if_necessary ex "archive.tar.gz".data maxAttempts
      = .ok "archive1.tar.gz".data ∧
    concat_num_to_file_name_if_necessary ex "report".data maxAttempts
      = .ok "report1".data := by
  have e1 : renameCandidate "archive.tar.gz".data 1 = "archive1.tar.gz".data := by
    decide
  have e2 : renameCandidate "report".data 1 = "report1".data := by decide
  constructor
  · have hr := concat_num_first_candidate_free ex "archive.tar.gz".data maxAttempts
      hmax ha (by rw [e1]; exact hb)
    rwa [e1] at hr
  · have hr := concat_num_first_candidate_free ex "report".data maxAttempts
      hmax hc (by rw [e2]; exact hd)
    rwa [e2] at hr

/-- Witness for C5: with exactly `archive.tar.gz` and `report` existing. -/
theorem C5_suffix_after_first_segment_witness :
    concat_num_to_file_name_if_necessary
        (exTaken ["archive.tar.gz".data, "report".data]) "archive.tar.gz".data 20
      = .ok "archive1.tar.gz".data ∧
    concat_num_to_file_name_if_necessary
        (exTaken ["archive.tar.gz".data, "report".data]) "report".data 20
      = .ok "report1".data :=
  C5_suffix_after_first_segment (exTaken ["archive.tar.gz".data, "report".data]) 20
    (by decide) (by decide) (by decide) (by decide) (by decide)

/-- C7: for every existence predicate the rename loop is bounded: running
the while-loop body as a step function for maxAttempts + 1 iterations
always reaches a result (returning a free candidate or raising the
exhaustion error), and that result is exactly what the resolution loop
computes; the resolution itself is that loop when the file exists. -/
theorem C7_rename_loop_bounded (ex : FileName → Bool) (file : FileName)
    (maxAttempts : Nat) :
    runRenameLoop ex file maxAttempts (maxAttempts + 1) (0, file)
      = some (renameLoop ex file maxAttempts 0 maxAttempts file) ∧
    concat_num_to_file_name_if_necessary ex file maxAttempts
      = (if ex file then renameLoop ex file maxAttempts 0 maxAttempts file
         else .ok file) :=
  ⟨runRenameLoop_reaches ex file maxAttempts maxAttempts 0 file (by omega), rfl⟩

/-- C1 counterexample: with `name.ext` and `name1.ext` … `name20.ext` all
existing and the maximum of 20 attempts, the raised
`TooManyRenameAttemptsError` carries attempt count 20 — the configured
maximum itself, which the code passes as constructor argument — not 21. -/
theorem C1_counterexample_carried_count_is_20 :
    concat_num_to_file_name_if_necessary exC1scenario "name.ext".data
        MAX_NUM_OF_RENAME_ATTEMPTS
      = .error ⟨20, "name.ext".data⟩ ∧ (20 : Nat) ≠ 21 :=
  ⟨rfl, by decide⟩

/-- C1 (amended): if the working file and all twenty numbered candidates
exist, resolution fails with `TooManyRenameAttemptsError` carrying
attempt count 20 (the configured maximum, not one past it) and the
originally requested file name. -/
theorem C1_exhaustion_carries_configured_max (ex : FileName → Bool) (file : FileName)
    (hex : ex file = true)
    (hall : ∀ n, 1 ≤ n → n ≤ MAX_NUM_OF_RENAME_ATTEMPTS →
      ex (renameCandidate file n) = true) :
    concat_num_to_file_name_if_necessary ex file MAX_NUM_OF_RENAME_ATTEMPTS
      = .error ⟨MAX_NUM_OF_RENAME_ATTEMPTS, file⟩ := by
  simp only [concat_num_to_file_name_if_necessary, hex, if_true]
  exact renameLoop_all_taken ex file MAX_NUM_OF_RENAME_ATTEMPTS
    MAX_NUM_OF_RENAME_ATTEMPTS 0 file (by omega) hex
    (fun n h1 h2 => hall n (by omega) h2)

/-- Witness for the amended C1, on the concrete exhausted scenario. -/
theorem C1_exhaustion_carries_configured_max_witness :
    exC1scenario "name.ext".data = true ∧
    concat_num_to_file_name_if_necessary exC1scenario "name.ext".data
        MAX_NUM_OF_RENAME_ATTEMPTS
      = .error ⟨MAX_NUM_OF_RENAME_ATTEMPTS, "name.ext".data⟩ :=
  ⟨by decide, C1_exhaustion_carries_configured_max exC1scenario "name.ext".data
    (by decide) (by
      intro n h1 h2
      have h2' : n ≤ 20 := h2
      interval_cases n <;> decide)⟩

/-- C9: when the working file's basename begins with a dot, the first
dot-delimited segment is the empty string, so every rename candidate is
the attempt number prepended before the leading dot (`1.hidden`,
`2.hidden`, …), not appended to the visible name. -/
theorem C9_leading_dot_prepends_number (file : FileName) (t : List Char) (n : Nat)
    (h : (osPathSplit file).2 = '.' :: t) :
    renameCandidate file n
      = osPathJoin (osPathSplit file).1 (natDigits n ++ '.' :: t) := by
  have hsplit : splitOnChar '.' ('.' :: t) = [] :: splitOnChar '.' t := by
    simp [splitOnChar]
  simp only [renameCandidate, h, hsplit, List.headD_cons, List.tail_cons,
    List.nil_append]
  rw [intercalateChar_cons_split]

/-- Witness for C9: the candidates for `.hidden` are the number followed
by the whole hidden name, e.g. `1.hidden`. -/
theorem C9_leading_dot_prepends_number_witness :
    (osPathSplit ".hidden".data).2 = '.' :: "hidden".data ∧
    renameCandidate ".hidden".data 1
      = osPathJoin (osPathSplit ".hidden".data).1 (natDigits 1 ++ '.' :: "hidden".data) ∧
    renameCandidate ".hidden".data 1 = "1.hidden".data :=
  ⟨by decide,
   C9_leading_dot_prepends_number ".hidden".data "hidden".data 1 (by decide),
   by decide⟩

/-- C10: every successfully returned path is either the working path
itself or has the same directory component and the same trailing
dot-delimited segments as the working path, with the first segment
extended only by appending the decimal digits of the attempt number. -/
theorem C10_result_differs_only_in_first_segment (ex : FileName → Bool)
    (file res : FileName) (maxAttempts : Nat)
    (h : concat_num_to_file_name_if_necessary ex file maxAttempts = .ok res) :
    res = file ∨ ∃ n, 1 ≤ n ∧
      (osPathSplit res).1 = (osPathSplit file).1 ∧
      splitOnChar '.' (osPathSplit res).2
        = ((splitOnChar '.' (osPathSplit file).2).headD [] ++ natDigits n)
            :: (splitOnChar '.' (osPathSplit file).2).tail := by
  simp only [concat_num_to_file_name_if_necessary] at h
  cases hex : ex file with
  | false =>
    rw [hex] at h
    simp at h
    exact Or.inl h.symm
  | true =>
    rw [hex] at h
    simp only [if_true] at h
    rcases renameLoop_ok_shape ex file maxAttempts maxAttempts 0 file res h
      with h1 | ⟨n, hn, hres⟩
    · exact Or.inl h1
    · subst hres
      exact Or.inr ⟨n, by omega, by rw [(renameCandidate_shape file n).1],
        (renameCandidate_shape file n).2⟩

/-- Witness for C10: resolving `doc.pdf` against a file system where only
`doc.pdf` exists returns `doc1.pdf`, which satisfies the shape claim. -/
theorem C10_result_differs_only_in_first_segment_witness :
    concat_num_to_file_name_if_necessary (exTaken ["doc.pdf".data]) "doc.pdf".data 20
      = .ok "doc1.pdf".data ∧
    ("doc1.pdf".data = "doc.pdf".data ∨ ∃ n, 1 ≤ n ∧
      (osPathSplit "doc1.pdf".data).1 = (osPathSplit "doc.pdf".data).1 ∧
      splitOnChar '.' (osPathSplit "doc1.pdf".data).2
        = ((splitOnChar '.' (osPathSplit "doc.pdf".data).2).headD []
            ++ natDigits n)
            :: (splitOnChar '.' (osPathSplit "doc.pdf".data).2).tail) :=
  ⟨rfl, C10_result_differs_only_in_first_segment (exTaken ["doc.pdf".data])
    "doc.pdf".data "doc1.pdf".data 20 rfl⟩

/-- C2: merging inputs whose documents have page lists `ds` succeeds and
writes at the output path the concatenation of all input pages in input
order; the output page count is the sum of the input page counts.
Zero-page and single-page inputs are ordinary cases of the statement. -/
theorem C2_merge_concatenates_pages {α : Type} (docs : FileName → Option (List α))
    (outfile : FileName) (pdf_files : List FileName) (ds : List (List α))
    (h : pdf_files.mapM docs = some ds) :
    (merge_pdfs docs outfile pdf_files).2 = none ∧
    (merge_pdfs docs outfile pdf_files).1 outfile = some ds.flatten ∧
    ds.flatten.length = (ds.map List.length).sum := by
  have hread := readAndAppendPdfs_ok docs pdf_files ds [] h
  rw [List.nil_append] at hread
  have hmk : makedirsExistOk (normpath (osPathSplit outfile).1) = .ok () := by
    simp only [makedirsExistOk, if_neg (normpath_ne_nil _)]
  simp only [merge_pdfs, hread, hmk]
  exact ⟨by simp, by simp, List.length_flatten ds⟩

/-- Witness for C2: three documents of 2, 0 and 1 pages merge into a
3-page output in order. -/
theorem C2_merge_concatenates_pages_witness :
    (merge_pdfs docsABC "out.pdf".data
        ["a.pdf".data, "b.pdf".data, "c.pdf".data]).2 = none ∧
    (merge_pdfs docsABC "out.pdf".data
        ["a.pdf".data, "b.pdf".data, "c.pdf".data]).1 "out.pdf".data
      = some [10, 11, 20] ∧
    ([[10, 11], [], [20]] : List (List Nat)).flatten.length
      = (([[10, 11], [], [20]] : List (List Nat)).map List.length).sum :=
  C2_merge_concatenates_pages docsABC "out.pdf".data
    ["a.pdf".data, "b.pdf".data, "c.pdf".data] [[10, 11], [], [20]] (by decide)

/-- C3: if any input fails to open as a document, merge raises the
document-open error and the file system is unchanged — in particular at
the output path — because the write step only runs after every input has
been appended. -/
theorem C3_failed_input_leaves_output_unchanged {α : Type}
    (docs : FileName → Option (List α)) (outfile : FileName)
    (pdf_files : List FileName) (f : FileName)
    (hf : f ∈ pdf_files) (hnone : docs f = none) :
    (merge_pdfs docs outfile pdf_files).2 = some MergeError.docOpenError ∧
    (merge_pdfs docs outfile pdf_files).1 = docs := by
  have hread := readAndAppendPdfs_error docs pdf_files [] f hf hnone
  simp only [merge_pdfs, hread]
  exact ⟨by simp, by simp⟩

/-- Witness for C3: merging a good and a missing input raises and leaves
the file system untouched at the output path. -/
theorem C3_failed_input_leaves_output_unchanged_witness :
    (merge_pdfs docsABC "out.pdf".data ["a.pdf".data, "missing.pdf".data]).2
      = some MergeError.docOpenError ∧
    (merge_pdfs docsABC "out.pdf".data ["a.pdf".data, "missing.pdf".data]).1
        "out.pdf".data
      = docsABC "out.pdf".data :=
  ⟨(C3_failed_input_leaves_output_unchanged docsABC "out.pdf".data
      ["a.pdf".data, "missing.pdf".data] "missing.pdf".data (by decide) (by decide)).1,
   congrFun (C3_failed_input_leaves_output_unchanged docsABC "out.pdf".data
      ["a.pdf".data, "missing.pdf".data] "missing.pdf".data (by decide) (by decide)).2
      "out.pdf".data⟩

/-- C8: for an output path with no directory component, the dirname is
empty, `normpath` maps it to the current directory `"."`, the
directory-ensuring step succeeds, and merge can never raise the
directory-creation error on such a path. -/
theorem C8_bare_filename_dir_step_succeeds (outfile : FileName)
    (h : '/' ∉ outfile) :
    normpath (osPathSplit outfile).1 = ['.'] ∧
    makedirsExistOk (normpath (osPathSplit outfile).1) = .ok () ∧
    ∀ (α : Type) (docs : FileName → Option (List α)) (pdf_files : List FileName),
      (merge_pdfs docs outfile pdf_files).2 ≠ some MergeError.dirCreationError := by
  have hsplit : osPathSplit outfile = ([], outfile) :=
    osPathSplit_of_no_slash outfile h
  have hnorm : normpath (osPathSplit outfile).1 = ['.'] := by rw [hsplit]; rfl
  refine ⟨hnorm, by rw [hnorm]; rfl, ?_⟩
  intro α docs pdf_files
  cases hread : readAndAppendPdfs docs pdf_files [] with
  | error e => simp [merge_pdfs, hread]
  | ok result_pdf =>
    simp [merge_pdfs, hread, makedirsExistOk, hnorm]

/-- Witness for C8: the bare filename `merged.pdf`. -/
theorem C8_bare_filename_dir_step_succeeds_witness :
    normpath (osPathSplit "merged.pdf".data).1 = ['.'] ∧
    makedirsExistOk (normpath (osPathSplit "merged.pdf".data).1) = .ok () ∧
    (merge_pdfs docsNone "merged.pdf".data ["a.pdf".data]).2
      ≠ some MergeError.dirCreationError :=
  ⟨(C8_bare_filename_dir_step_succeeds "merged.pdf".data (by decide)).1,
   (C8_bare_filename_dir_step_succeeds "merged.pdf".data (by decide)).2.1,
   (C8_bare_filename_dir_step_succeeds "merged.pdf".data (by decide)).2.2
     Nat docsNone ["a.pdf".data]⟩
